import Mathlib

/-!
Verification development for the `From-TCP-To-HTTP` repository: a shallow
embedding of the incremental HTTP/1.1 request parser
(`internal/request/request.go`, `internal/headers/headers.go`) and the
response writer state machine (`internal/response/writer.go`,
`internal/response/response.go`), together with theorems about the
spec's claims.

Bytes are modelled as `Nat` (values 0..255 as produced by Go's `byte`;
no arithmetic overflow is involved, only comparisons).  Go slices of
bytes become `List Nat`; Go strings in parsed results stay byte lists.
Stateful Go methods become explicit state-passing functions, and the
read loop of `RequestFromReader` becomes a recursion over the list of
chunks delivered by the reader (the test double `chunkReader` delivers
the stream as successive non-empty chunks followed by `io.EOF`, which
is exactly this model).
-/

namespace HttpGo

abbrev Byte := Nat

/-- Convert a Lean string literal to the byte list of its ASCII code points
(used only to write concrete test inputs; all inputs in this file are ASCII). -/
def bytesOf (s : String) : List Byte := s.toList.map Char.toNat

/-- Index of the first occurrence of the two-byte sequence CRLF (13, 10) in a
byte list; embeds `bytes.Index(data, []byte("\r\n"))` (with `none` for -1). -/
def crlfIdx : List Byte → Option Nat
  | [] => none
  | [_] => none
  | b :: c :: rest =>
    if b = 13 ∧ c = 10 then some 0 else (crlfIdx (c :: rest)).map (· + 1)

/-- Split a byte list at the first occurrence of the single byte `sep`;
embeds `bytes.Cut(s, sep)` for a one-byte separator, `none` meaning the
separator was not found. -/
def cutByte (sep : Byte) : List Byte → Option (List Byte × List Byte)
  | [] => none
  | b :: rest =>
    if b = sep then some ([], rest)
    else (cutByte sep rest).map (fun p => (b :: p.1, p.2))

/-- The `asciiSpace` table of package `bytes`: tab, newline, vertical tab,
form feed, carriage return, space. -/
def isASCIISpace (b : Byte) : Bool :=
  b = 9 || b = 10 || b = 11 || b = 12 || b = 13 || b = 32

/-- `utf8.DecodeRune`: the first rune of a byte list and its encoded size.
Empty input gives `(RuneError, 0)`; an invalid or incomplete sequence
(stray continuation byte, overlong form, surrogate, out-of-range, or a
truncated multi-byte sequence) gives `(RuneError, 1)`.  `RuneError` is
U+FFFD = 65533. -/
def decodeRune : List Byte → Nat × Nat
  | [] => (65533, 0)
  | b0 :: rest =>
    if b0 < 128 then (b0, 1)
    else if 194 ≤ b0 ∧ b0 ≤ 223 then
      match rest with
      | b1 :: _ =>
        if 128 ≤ b1 ∧ b1 ≤ 191 then ((b0 - 192) * 64 + (b1 - 128), 2)
        else (65533, 1)
      | [] => (65533, 1)
    else if 224 ≤ b0 ∧ b0 ≤ 239 then
      match rest with
      | b1 :: b2 :: _ =>
        let lo := if b0 = 224 then 160 else 128
        let hi := if b0 = 237 then 159 else 191
        if lo ≤ b1 ∧ b1 ≤ hi ∧ 128 ≤ b2 ∧ b2 ≤ 191 then
          ((b0 - 224) * 4096 + (b1 - 128) * 64 + (b2 - 128), 3)
        else (65533, 1)
      | _ => (65533, 1)
    else if 240 ≤ b0 ∧ b0 ≤ 244 then
      match rest with
      | b1 :: b2 :: b3 :: _ =>
        let lo := if b0 = 240 then 144 else 128
        let hi := if b0 = 244 then 143 else 191
        if lo ≤ b1 ∧ b1 ≤ hi ∧ 128 ≤ b2 ∧ b2 ≤ 191 ∧ 128 ≤ b3 ∧ b3 ≤ 191 then
          ((b0 - 240) * 262144 + (b1 - 128) * 4096 + (b2 - 128) * 64 + (b3 - 128), 4)
        else (65533, 1)
      | _ => (65533, 1)
    else (65533, 1)

/-- `utf8.RuneStart`: a byte that is not a continuation byte. -/
def runeStart (b : Byte) : Bool := !(128 ≤ b && b ≤ 191)

/-- The backwards start-byte scan of `utf8.DecodeLastRune`: from index
`idx` down to `lim`, the first index holding a rune-start byte; if none,
`lim - 1` (Go clamps the resulting -1 to 0, which `Nat` subtraction
reproduces). -/
def findStart (p : List Byte) (lim : Nat) : Nat → Nat
  | 0 => if lim = 0 ∧ runeStart (p.getD 0 0) then 0 else lim - 1
  | idx + 1 =>
    if idx + 1 < lim then lim - 1
    else if runeStart (p.getD (idx + 1) 0) then idx + 1
    else findStart p lim idx

/-- `utf8.DecodeLastRune`: the final rune of a byte list and its size.
An ASCII final byte is returned directly; otherwise the start byte is
sought at most `UTFMax` = 4 bytes back, and a decode that does not span
exactly to the end yields `(RuneError, 1)`. -/
def decodeLastRune (p : List Byte) : Nat × Nat :=
  match p.getLast? with
  | none => (65533, 0)
  | some lb =>
    if lb < 128 then (lb, 1)
    else
      let e := p.length
      let start := findStart p (e - 4) (e - 2)
      let rs := decodeRune (p.drop start)
      if start + rs.2 = e then rs else (65533, 1)

/-- `unicode.IsSpace` on a rune: the Latin-1 cases (tab, newline, vertical
tab, form feed, carriage return, space, NEL U+0085, NBSP U+00A0) plus the
White_Space table (U+1680, U+2000-U+200A, U+2028, U+2029, U+202F, U+205F,
U+3000). -/
def isUnicodeSpace (r : Nat) : Bool :=
  r = 9 || r = 10 || r = 11 || r = 12 || r = 13 || r = 32 || r = 133 || r = 160 ||
  r = 5760 || (8192 ≤ r && r ≤ 8202) || r = 8232 || r = 8233 ||
  r = 8239 || r = 8287 || r = 12288

/-- `bytes.TrimLeftFunc(s, unicode.IsSpace)`: drop leading whitespace
runes, stopping at the first rune (including `RuneError` for invalid
bytes) that is not whitespace.  The fuel only bounds the iteration count;
each continuing step drops at least one byte, so `s.length` is enough. -/
def trimLeftFuncWS : Nat → List Byte → List Byte
  | 0, s => s
  | fuel + 1, s =>
    if s.isEmpty then s
    else
      let rs := decodeRune s
      if isUnicodeSpace rs.1 then trimLeftFuncWS fuel (s.drop rs.2) else s

/-- `bytes.TrimRightFunc(s, unicode.IsSpace)`: drop trailing whitespace
runes, decoding from the end. -/
def trimRightFuncWS : Nat → List Byte → List Byte
  | 0, s => s
  | fuel + 1, s =>
    if s.isEmpty then s
    else
      let rs := decodeLastRune s
      if isUnicodeSpace rs.1 then trimRightFuncWS fuel (s.take (s.length - rs.2)) else s

/-- `bytes.TrimFunc(s, unicode.IsSpace)`: left trim, then right trim. -/
def trimFuncWS (s : List Byte) : List Byte :=
  trimRightFuncWS s.length (trimLeftFuncWS s.length s)

/-- The right-to-left half of `bytes.TrimSpace`'s ASCII fast path, running
over the reversed remainder: skip trailing ASCII whitespace; on reaching a
non-ASCII byte fall back to the Unicode-aware `TrimFunc` on everything up
to and including that byte; stop at an ASCII non-space byte. -/
def trimSpaceRightScan : List Byte → List Byte
  | [] => []
  | c :: rest =>
    if 128 ≤ c then trimFuncWS (c :: rest).reverse
    else if isASCIISpace c then trimSpaceRightScan rest
    else (c :: rest).reverse

/-- The left-to-right half of `bytes.TrimSpace`'s ASCII fast path: skip
leading ASCII whitespace; on a non-ASCII byte fall back to `TrimFunc` on
the rest; on an ASCII non-space byte switch to the right-hand scan.  All
whitespace gives `[]` (Go returns nil). -/
def trimSpaceLeftScan : List Byte → List Byte
  | [] => []
  | b :: rest =>
    if 128 ≤ b then trimFuncWS (b :: rest)
    else if isASCIISpace b then trimSpaceLeftScan rest
    else trimSpaceRightScan (b :: rest).reverse

/-- `bytes.TrimSpace`: ASCII fast path from both ends with a fallback to
`TrimFunc(s, unicode.IsSpace)` as soon as a non-ASCII byte is met, so
UTF-8-encoded Unicode spaces (NBSP, NEL, ...) at the edges are trimmed
exactly as Go trims them. -/
def trimSpaceB (l : List Byte) : List Byte := trimSpaceLeftScan l

/-- `bytes.TrimLeft(key, " ")`: drop leading space bytes only. -/
def trimLeftSpaces : List Byte → List Byte
  | [] => []
  | b :: rest => if b = 32 then trimLeftSpaces rest else b :: rest

/-- `bytes.ToLower` on ASCII bytes: map capital letters to lower case. -/
def toLowerB (b : Byte) : Byte :=
  if 65 ≤ b ∧ b ≤ 90 then b + 32 else b

/-- `headers.isTokenChar`: lower-case letters, digits, and the RFC 9110
token symbols.  (Capital letters are rejected, as in the source; keys are
lower-cased before this check runs.) -/
def isTokenChar (b : Byte) : Bool :=
  (97 ≤ b && b ≤ 122) || (48 ≤ b && b ≤ 57) ||
  (b = 33 || b = 35 || b = 36 || b = 37 || b = 38 || b = 39 || b = 42 ||
   b = 43 || b = 45 || b = 46 || b = 94 || b = 95 || b = 96 || b = 124 || b = 126)

/-- The header mapping `headers.Headers` (a Go `map[string]string`) is
modelled as an insertion-ordered association list with unique keys. -/
abbrev Headers := List (List Byte × List Byte)

/-- `headers.NewHeaders()`. -/
def NewHeaders : Headers := []

/-- Go map lookup `h[k]`. -/
def hGet (h : Headers) (k : List Byte) : Option (List Byte) :=
  (h.find? (fun p => p.1 = k)).map (·.2)

/-- Go map store `h[k] = v`: overwrite in place if the key is present,
append a fresh entry otherwise. -/
def hSet (h : Headers) (k v : List Byte) : Headers :=
  match h with
  | [] => [(k, v)]
  | (k', v') :: rest => if k' = k then (k, v) :: rest else (k', v') :: hSet rest k v

/-- The error values of `internal/headers`. -/
inductive HErr where
  | NoColon
  | EmptyKey
  | SpaceBeforeColon
  | InvalidCharInKey
  deriving DecidableEq, Repr

/-- `headers.Headers.Parse`: consume at most one field line (or the blank
line) from `data`, returning (bytes consumed, done flag, error, updated map).
The updated map is returned explicitly in place of Go's in-place mutation. -/
def headersParse (h : Headers) (data : List Byte) :
    Nat × Bool × Option HErr × Headers :=
  match crlfIdx data with
  | none => (0, false, none, h)
  | some idx =>
    if idx = 0 then (2, true, none, h)
    else
      let header := data.take idx
      match cutByte 58 header with
      | none => (0, false, some .NoColon, h)
      | some (key, remaining) =>
        if key = [] then (0, false, some .EmptyKey, h)
        else if key.getLast? = some 32 then (0, false, some .SpaceBeforeColon, h)
        else
          let value := trimSpaceB remaining
          let normalizedKey := (trimLeftSpaces key).map toLowerB
          if normalizedKey.all isTokenChar then
            let h' :=
              match hGet h normalizedKey with
              | some existingValue => hSet h normalizedKey (existingValue ++ [44, 32] ++ value)
              | none => hSet h normalizedKey value
            (idx + 2, false, none, h')
          else (0, false, some .InvalidCharInKey, h)

/-- `request.RequestLine` (field order as in the source struct). -/
structure RequestLine where
  HttpVersion : List Byte
  RequestTarget : List Byte
  Method : List Byte
  deriving DecidableEq, Repr

/-- `request.parserState`: the enum of the parser state machine in
`internal/request/request.go` (no body state exists there). -/
inductive parserState where
  | requestStateInitialized
  | requestStateDone
  | requestStateParsingHeaders
  deriving DecidableEq, Repr

/-- `request.Request`.  `Headers` is `Option`al because the Go map starts
out `nil` and is only allocated by `parseSingle`'s headers branch. -/
structure Request where
  RequestLine : RequestLine
  Headers : Option Headers
  state : parserState
  deriving DecidableEq, Repr

/-- The request-line errors of `internal/request`. -/
inductive RErr where
  | ParsingMethod
  | ParsingTarget
  | ParsingHttpVersion
  | InvalidMethod (method : List Byte)
  | InvalidVersion (version : List Byte)
  deriving DecidableEq, Repr

/-- Any fatal parse error surfaced by `Request.parse`. -/
inductive PErr where
  | rl (e : RErr)
  | hdr (e : HErr)
  deriving DecidableEq, Repr

/-- `request.newRequest()`: zero value with state `requestStateInitialized`. -/
def newRequest : Request :=
  { RequestLine := ⟨[], [], []⟩, Headers := none, state := .requestStateInitialized }

/-- The literal `"HTTP/1.1"` as bytes. -/
def httpVersionLit : List Byte := [72, 84, 84, 80, 47, 49, 46, 49]

/-- The part of `request.parseRequestLine` that runs on the pre-CRLF line:
split on the two space delimiters, check the version literal (the source
checks it before validating the method bytes), then validate the method. -/
def parseRequestLineCore (line : List Byte) : Option RequestLine × Option RErr :=
  match cutByte 32 line with
  | none => (none, some .ParsingMethod)
  | some (method, rest) =>
    match cutByte 32 rest with
    | none => (none, some .ParsingTarget)
    | some (target, rest2) =>
      if rest2 ≠ httpVersionLit then (none, some (.InvalidVersion rest2))
      else
        match cutByte 47 rest2 with
        | none => (none, some .ParsingHttpVersion)
        | some (_, version) =>
          if method.all (fun c => 65 ≤ c && c ≤ 90) then
            (some ⟨version, target, method⟩, none)
          else (none, some (.InvalidMethod method))

/-- `request.parseRequestLine`: returns (parsed line if any, bytes consumed,
rest of the message, error).  Insufficient data (no CRLF yet) is
`(none, 0, data, none)`; on success bytes consumed is the line length
plus 2. -/
def parseRequestLine (data : List Byte) :
    Option RequestLine × Nat × List Byte × Option RErr :=
  match crlfIdx data with
  | none => (none, 0, data, none)
  | some idx =>
    match parseRequestLineCore (data.take idx) with
    | (some rl, none) => (some rl, idx + 2, data.drop (idx + 2), none)
    | (_, err) => (none, 0, data, err)

/-- `Request.parseSingle`: run one step of the state machine on the
unconsumed slice `p`, returning the updated request, the bytes consumed and
an optional error.  A return of `(_, 0, none)` is the insufficient-data
signal. -/
def parseSingle (r : Request) (p : List Byte) : Request × Nat × Option PErr :=
  match r.state with
  | .requestStateInitialized =>
    match parseRequestLine p with
    | (_, _, _, some e) => (r, 0, some (.rl e))
    | (none, _, _, none) => (r, 0, none)
    | (some rl, n, _, none) =>
      if n = 0 then (r, 0, none)
      else ({ r with RequestLine := rl, state := .requestStateParsingHeaders }, n, none)
  | .requestStateParsingHeaders =>
    let h := r.Headers.getD NewHeaders
    let r1 := { r with Headers := some h }
    match headersParse h p with
    | (_, _, some e, h') => ({ r1 with Headers := some h' }, 0, some (.hdr e))
    | (n, done, none, h') =>
      if n = 0 then (r1, 0, none)
      else
        let st := if done then parserState.requestStateDone else r1.state
        ({ r1 with Headers := some h', state := st }, n, none)
  | .requestStateDone => (r, 0, none)

/-- The loop body of `Request.parse`, written as fuel-indexed recursion on
the unconsumed suffix: Go's cursor `p[totalBytesParsed:]` becomes the list
argument `q`, and the returned count accumulates the consumed prefix.  The
fuel only bounds the number of iterations; `parse` supplies `q.length`,
which is always enough because every continuing iteration consumes at least
one byte. -/
def parseFuel : Nat → Request → List Byte → Request × Nat × Option PErr
  | 0, r, _ => (r, 0, none)
  | fuel + 1, r, q =>
    if r.state = .requestStateDone then (r, 0, none)
    else if q.length = 0 then (r, 0, none)
    else
      match parseSingle r q with
      | (r', _, some e) => (r', 0, some e)
      | (r', 0, none) => (r', 0, none)
      | (r', n + 1, none) =>
        match parseFuel fuel r' (q.drop (n + 1)) with
        | (r'', m, e) => (r'', (n + 1) + m, e)

/-- `Request.parse`. -/
def parse (r : Request) (p : List Byte) : Request × Nat × Option PErr :=
  parseFuel p.length r p

/-- The read loop of `request.RequestFromReader`: the byte source is the
list of chunks the reader will deliver before signalling `io.EOF`.  On
end-of-stream with the machine not yet done, the source sets
`req.state = requestStateDone`, breaks, and returns the request with no
error. -/
def drive (r : Request) (buf : List Byte) : List (List Byte) → Except PErr Request
  | [] =>
    if r.state = .requestStateDone then .ok r
    else .ok { r with state := .requestStateDone }
  | c :: rest =>
    if r.state = .requestStateDone then .ok r
    else
      let buf' := buf ++ c
      match parse r buf' with
      | (_, _, some e) => .error e
      | (r', n, none) => drive r' (buf'.drop n) rest

/-- `request.RequestFromReader`, with the reader modelled as its chunk list. -/
def RequestFromReader (chunks : List (List Byte)) : Except PErr Request :=
  drive newRequest [] chunks

/-! ### The body-collecting state machine

The tests in `internal/request/request_test.go` exercise a `Body` field and
a Content-Length mismatch error, and the repository's narrative describes a
`requestStateParsingBody` state, but the `request.go` under `src/` predates
that phase: it has no body state, no `Body` field, and no Content-Length
handling.  The definitions below model that missing phase from the spec. -/

/-- Modelled from the spec: the spec's `ParseState` tagged variant
`{Initialized, ParsingHeaders, ParsingBody(targetLength, accumulatedLength),
Done}` (§3); the body-collecting variant is absent from
`src/internal/request/request.go`.  The accumulated length is carried by the
request's body list, so the variant stores the target length only. -/
inductive BState where
  | initialized
  | parsingHeaders
  | parsingBody (target : Nat)
  | done
  deriving DecidableEq, Repr

/-- Modelled from the spec: the `Request` entity of §3 extended with the
`Body` byte sequence that the `request.go` under `src/` does not yet have. -/
structure RequestB where
  RequestLine : RequestLine
  Headers : Option Headers
  Body : List Byte
  state : BState
  deriving DecidableEq, Repr

/-- Modelled from the spec: the error taxonomy of §7 for the full parser,
including `ContentLengthMismatch` (§4.4) and `UnexpectedEndOfStream` (§4.1),
neither of which exists in `src/internal/request/request.go`. -/
inductive BErr where
  | rl (e : RErr)
  | hdr (e : HErr)
  | ContentLengthMismatch
  | UnexpectedEndOfStream
  deriving DecidableEq, Repr

/-- The normalized header name `"content-length"` as bytes. -/
def contentLengthKey : List Byte :=
  [99, 111, 110, 116, 101, 110, 116, 45, 108, 101, 110, 103, 116, 104]

/-- Modelled from the spec: parse a header value as a non-negative integer
(§4.4 "not parseable as a non-negative integer"); decimal digits only. -/
def parseCL (v : List Byte) : Option Nat :=
  if v ≠ [] ∧ v.all (fun b => 48 ≤ b && b ≤ 57) then
    some (v.foldl (fun a d => a * 10 + (d - 48)) 0)
  else none

/-- Modelled from the spec: the empty request at `Initialized` (§3). -/
def newRequestB : RequestB :=
  { RequestLine := ⟨[], [], []⟩, Headers := none, Body := [], state := .initialized }

/-- Modelled from the spec: one step of the full state machine (§4.2-§4.4).
The request-line and header steps reuse the source's `parseRequestLine` and
`headersParse`; when the header section completes, the Content-Length header
decides between jumping to `done` (absent/unparseable, §4.4) and entering
`parsingBody T`.  In `parsingBody T`, all available bytes are appended to
the body; more than `T` accumulated bytes is the fatal
`ContentLengthMismatch`, exactly `T` completes, fewer reports full
consumption and waits. -/
def parseSingleB (r : RequestB) (p : List Byte) : RequestB × Nat × Option BErr :=
  match r.state with
  | .initialized =>
    match parseRequestLine p with
    | (_, _, _, some e) => (r, 0, some (.rl e))
    | (none, _, _, none) => (r, 0, none)
    | (some rl, n, _, none) =>
      if n = 0 then (r, 0, none)
      else ({ r with RequestLine := rl, state := .parsingHeaders }, n, none)
  | .parsingHeaders =>
    let h := r.Headers.getD NewHeaders
    let r1 := { r with Headers := some h }
    match headersParse h p with
    | (_, _, some e, h') => ({ r1 with Headers := some h' }, 0, some (.hdr e))
    | (n, done, none, h') =>
      if n = 0 then (r1, 0, none)
      else
        let st :=
          if done then
            match hGet h' contentLengthKey with
            | none => BState.done
            | some v =>
              match parseCL v with
              | none => BState.done
              | some t => BState.parsingBody t
          else r1.state
        ({ r1 with Headers := some h', state := st }, n, none)
  | .parsingBody t =>
    let body' := r.Body ++ p
    if t < body'.length then
      ({ r with Body := body' }, p.length, some .ContentLengthMismatch)
    else if body'.length = t then
      ({ r with Body := body', state := .done }, p.length, none)
    else
      ({ r with Body := body' }, p.length, none)
  | .done => (r, 0, none)

/-- Modelled from the spec: the driver's inner consume-until-stuck loop
(§4.1), fuel-indexed like `parseFuel`. -/
def parseFuelB : Nat → RequestB → List Byte → RequestB × Nat × Option BErr
  | 0, r, _ => (r, 0, none)
  | fuel + 1, r, q =>
    if r.state = .done then (r, 0, none)
    else if q.length = 0 then (r, 0, none)
    else
      match parseSingleB r q with
      | (r', _, some e) => (r', 0, some e)
      | (r', 0, none) => (r', 0, none)
      | (r', n + 1, none) =>
        match parseFuelB fuel r' (q.drop (n + 1)) with
        | (r'', m, e) => (r'', (n + 1) + m, e)

/-- Modelled from the spec: `Request.parse` for the full machine. -/
def parseB (r : RequestB) (p : List Byte) : RequestB × Nat × Option BErr :=
  parseFuelB p.length r p

/-- Modelled from the spec: the §4.1 read loop — on zero-bytes-plus
end-of-stream with state ≠ Done it reports `UnexpectedEndOfStream`; the
loop never returns a result for a stream that ends before Done. -/
def driveB (r : RequestB) (buf : List Byte) : List (List Byte) → Except BErr RequestB
  | [] =>
    if r.state = .done then .ok r else .error .UnexpectedEndOfStream
  | c :: rest =>
    if r.state = .done then .ok r
    else
      let buf' := buf ++ c
      match parseB r buf' with
      | (_, _, some e) => .error e
      | (r', n, none) => driveB r' (buf'.drop n) rest

/-- Modelled from the spec: `RunToCompletion(byteSource) → Request | Error`
(§4.1) for the full machine with body collection. -/
def RequestFromReaderB (chunks : List (List Byte)) : Except BErr RequestB :=
  driveB newRequestB [] chunks

/-! ### The response writer (`internal/response`) -/

/-- `response.WriterState`. -/
inductive WriterState where
  | StateStatusPending
  | StateHeadersPending
  | StateBodyPending
  deriving DecidableEq, Repr

/-- `response.Writer`: the wrapped `io.Writer` is modelled as the byte list
written to it so far. -/
structure Writer where
  writer : List Byte
  state : WriterState
  deriving DecidableEq, Repr

/-- `response.NewWriter`. -/
def NewWriter : Writer := { writer := [], state := .StateStatusPending }

/-- The out-of-order errors a `response.Writer` method can return. -/
inductive WriteErr where
  | statusLineOutOfOrder
  | headersOutOfOrder
  | bodyOutOfOrder
  deriving DecidableEq, Repr

/-- The bytes of `response.WriteStatusLine` for a status code: the three
known codes get their reason phrases, unknown codes a blank phrase. -/
def statusLineBytes (code : Nat) : List Byte :=
  if code = 200 then bytesOf "HTTP/1.1 200 OK\r\n"
  else if code = 400 then bytesOf "HTTP/1.1 400 Bad Request\r\n"
  else if code = 500 then bytesOf "HTTP/1.1 500 Internal Server Error\r\n"
  else bytesOf "HTTP/1.1 " ++ (Nat.toDigits 10 code).map Char.toNat ++ bytesOf " \r\n"

/-- The bytes of `response.WriteHeaders`: one `"key: value\r\n"` field line
per entry (the map iteration becomes the association list's order). -/
def headersBytes (hs : Headers) : List Byte :=
  (hs.map (fun p => p.1 ++ [58, 32] ++ p.2 ++ [13, 10])).flatten

/-- `Writer.WriteStatusLine`: only legal in the initial state. -/
def writeStatusLineW (w : Writer) (code : Nat) : Except WriteErr Writer :=
  if w.state ≠ .StateStatusPending then .error .statusLineOutOfOrder
  else .ok { writer := w.writer ++ statusLineBytes code, state := .StateHeadersPending }

/-- `Writer.WriteHeaders`: only legal after the status line; writes the
field lines and the terminating blank CRLF. -/
def writeHeadersW (w : Writer) (hs : Headers) : Except WriteErr Writer :=
  if w.state ≠ .StateHeadersPending then .error .headersOutOfOrder
  else .ok { writer := w.writer ++ headersBytes hs ++ [13, 10], state := .StateBodyPending }

/-- `Writer.WriteBody`: only legal after the headers; on error nothing is
written and 0 is reported. -/
def writeBodyW (w : Writer) (p : List Byte) : Except WriteErr (Writer × Nat) :=
  if w.state ≠ .StateBodyPending then .error .bodyOutOfOrder
  else .ok ({ w with writer := w.writer ++ p }, p.length)

/-- A call against the writer, for reasoning about arbitrary call
sequences. -/
inductive WOp where
  | status (code : Nat)
  | headers (hs : Headers)
  | body (p : List Byte)

/-- Perform one call; a rejected call leaves the writer untouched. -/
def applyOp (w : Writer) : WOp → Writer
  | .status c =>
    match writeStatusLineW w c with
    | .ok w' => w'
    | .error _ => w
  | .headers hs =>
    match writeHeadersW w hs with
    | .ok w' => w'
    | .error _ => w
  | .body p =>
    match writeBodyW w p with
    | .ok (w', _) => w'
    | .error _ => w

/-- Run a call sequence against a writer. -/
def runOps (w : Writer) (ops : List WOp) : Writer := ops.foldl applyOp w


/-! ### Basic lemmas about the scanning primitives -/

theorem crlfIdx_bound : ∀ (l : List Byte) (i : Nat), crlfIdx l = some i → i + 2 ≤ l.length := by
  intro l
  induction l with
  | nil => intro i h; simp [crlfIdx] at h
  | cons b rest ih =>
    intro i h
    cases rest with
    | nil => simp [crlfIdx] at h
    | cons c rest' =>
      rw [show crlfIdx (b :: c :: rest') =
        (if b = 13 ∧ c = 10 then some 0 else (crlfIdx (c :: rest')).map (· + 1)) from rfl] at h
      by_cases hbc : b = 13 ∧ c = 10
      · rw [if_pos hbc] at h
        injection h with h
        simp [← h, List.length]
      · rw [if_neg hbc] at h
        rw [Option.map_eq_some'] at h
        obtain ⟨j, hj, rfl⟩ := h
        have := ih j hj
        simp [List.length] at this ⊢
        omega

theorem crlfIdx_append : ∀ (l : List Byte) (i : Nat), crlfIdx l = some i →
    ∀ (e : List Byte), crlfIdx (l ++ e) = some i := by
  intro l
  induction l with
  | nil => intro i h; simp [crlfIdx] at h
  | cons b rest ih =>
    intro i h e
    cases rest with
    | nil => simp [crlfIdx] at h
    | cons c rest' =>
      rw [show crlfIdx (b :: c :: rest') =
        (if b = 13 ∧ c = 10 then some 0 else (crlfIdx (c :: rest')).map (· + 1)) from rfl] at h
      rw [show ((b :: c :: rest') ++ e) = b :: c :: (rest' ++ e) from rfl]
      rw [show crlfIdx (b :: c :: (rest' ++ e)) =
        (if b = 13 ∧ c = 10 then some 0 else (crlfIdx (c :: (rest' ++ e))).map (· + 1)) from rfl]
      by_cases hbc : b = 13 ∧ c = 10
      · rw [if_pos hbc] at h ⊢; exact h
      · rw [if_neg hbc] at h ⊢
        rw [Option.map_eq_some'] at h
        obtain ⟨j, hj, rfl⟩ := h
        have := ih j hj e
        rw [show ((c :: rest') ++ e) = c :: (rest' ++ e) from rfl] at this
        rw [Option.map_eq_some']
        exact ⟨j, this, rfl⟩

theorem crlfIdx_of_no13 : ∀ (l t : List Byte), (∀ b ∈ l, b ≠ 13) →
    crlfIdx (l ++ 13 :: 10 :: t) = some l.length := by
  intro l
  induction l with
  | nil => intro t _; simp [crlfIdx]
  | cons b rest ih =>
    intro t hb
    have hbne : b ≠ 13 := hb b (by simp)
    have hrest : ∀ x ∈ rest, x ≠ 13 := fun x hx => hb x (by simp [hx])
    cases rest with
    | nil =>
      rw [show (([b] : List Byte) ++ 13 :: 10 :: t) = b :: 13 :: 10 :: t from rfl]
      rw [show crlfIdx (b :: 13 :: 10 :: t) =
        (if b = 13 ∧ (13:Nat) = 10 then some 0 else (crlfIdx (13 :: 10 :: t)).map (· + 1)) from rfl]
      rw [if_neg (by simp [hbne])]
      simp [crlfIdx]
    | cons c rest' =>
      rw [show ((b :: c :: rest') ++ 13 :: 10 :: t) = b :: c :: (rest' ++ 13 :: 10 :: t) from rfl]
      rw [show crlfIdx (b :: c :: (rest' ++ 13 :: 10 :: t)) =
        (if b = 13 ∧ c = 10 then some 0
         else (crlfIdx (c :: (rest' ++ 13 :: 10 :: t))).map (· + 1)) from rfl]
      rw [if_neg (by intro hx; exact hbne hx.1)]
      have := ih t hrest  -- crlfIdx ((c :: rest') ++ ...) = some (c::rest').length
      rw [show ((c :: rest') ++ 13 :: 10 :: t) = c :: (rest' ++ 13 :: 10 :: t) from rfl] at this
      rw [this]
      simp

theorem crlfIdx_decomp : ∀ (l : List Byte) (i : Nat), crlfIdx l = some i →
    ∃ s t, l = s ++ 13 :: 10 :: t := by
  intro l
  induction l with
  | nil => intro i h; simp [crlfIdx] at h
  | cons b rest ih =>
    intro i h
    cases rest with
    | nil => simp [crlfIdx] at h
    | cons c rest' =>
      rw [show crlfIdx (b :: c :: rest') =
        (if b = 13 ∧ c = 10 then some 0 else (crlfIdx (c :: rest')).map (· + 1)) from rfl] at h
      by_cases hbc : b = 13 ∧ c = 10
      · exact ⟨[], rest', by simp [hbc.1, hbc.2]⟩
      · rw [if_neg hbc, Option.map_eq_some'] at h
        obtain ⟨j, hj, _⟩ := h
        obtain ⟨s, t, hst⟩ := ih j hj
        exact ⟨b :: s, t, by simp [hst]⟩

theorem cutByte_not_mem (sep : Byte) : ∀ (k v : List Byte), sep ∉ k →
    cutByte sep (k ++ sep :: v) = some (k, v) := by
  intro k
  induction k with
  | nil => intro v _; simp [cutByte]
  | cons b k' ih =>
    intro v hmem
    have hb : b ≠ sep := by intro h; exact hmem (by simp [h])
    have hk' : sep ∉ k' := fun h => hmem (by simp [h])
    rw [show ((b :: k') ++ sep :: v) = b :: (k' ++ sep :: v) from rfl]
    rw [show cutByte sep (b :: (k' ++ sep :: v)) =
      (if b = sep then some ([], k' ++ sep :: v)
       else (cutByte sep (k' ++ sep :: v)).map (fun p => (b :: p.1, p.2))) from rfl]
    rw [if_neg hb, ih v hk']
    rfl


end HttpGo

namespace HttpGo

theorem headersParse_insufficient (hh : Headers) (data : List Byte)
    (h : crlfIdx data = none) : headersParse hh data = (0, false, none, hh) := by
  simp [headersParse, h]

theorem headersParse_append (hh : Headers) (data e : List Byte) (i : Nat)
    (h : crlfIdx data = some i) :
    headersParse hh (data ++ e) = headersParse hh data := by
  have hb := crlfIdx_bound data i h
  have h2 := crlfIdx_append data i h e
  have ht : (data ++ e).take i = data.take i :=
    List.take_append_of_le_length (by omega)
  simp only [headersParse, h, h2, ht]

theorem parseRequestLine_insufficient (data : List Byte)
    (h : crlfIdx data = none) : parseRequestLine data = (none, 0, data, none) := by
  simp [parseRequestLine, h]

theorem parseRequestLine_append (data e : List Byte) (i : Nat)
    (h : crlfIdx data = some i) :
    (parseRequestLine (data ++ e)).1 = (parseRequestLine data).1 ∧
    (parseRequestLine (data ++ e)).2.1 = (parseRequestLine data).2.1 ∧
    (parseRequestLine (data ++ e)).2.2.2 = (parseRequestLine data).2.2.2 := by
  have hb := crlfIdx_bound data i h
  have h2 := crlfIdx_append data i h e
  have ht : (data ++ e).take i = data.take i :=
    List.take_append_of_le_length (by omega)
  simp only [parseRequestLine, h, h2, ht]
  rcases parseRequestLineCore (data.take i) with ⟨rlp, err⟩
  rcases rlp with _ | rl <;> rcases err with _ | e0 <;> simp

theorem parseRequestLine_bound (data : List Byte) :
    (parseRequestLine data).2.1 ≤ data.length := by
  rcases hc : crlfIdx data with _ | i
  · simp [parseRequestLine, hc]
  · have hb := crlfIdx_bound data i hc
    simp only [parseRequestLine, hc]
    rcases parseRequestLineCore (data.take i) with ⟨rlp, err⟩
    rcases rlp with _ | rl <;> rcases err with _ | e0 <;> simp <;> try omega

theorem headersParse_bound (hh : Headers) (data : List Byte) :
    (headersParse hh data).1 ≤ data.length := by
  rcases hc : crlfIdx data with _ | i
  · simp [headersParse, hc]
  · have hb := crlfIdx_bound data i hc
    simp only [headersParse, hc]
    by_cases hi : i = 0
    · simp [hi]; omega
    · simp only [if_neg hi]
      rcases cutByte 58 (data.take i) with _ | ⟨key, remaining⟩
      · simp
      · by_cases hk : key = []
        · simp [hk]
        · simp only [if_neg hk]
          by_cases hl : key.getLast? = some 32
          · simp [hl]
          · simp only [if_neg hl]
            by_cases ha : ((trimLeftSpaces key).map toLowerB).all isTokenChar
            · simp [ha]; omega
            · simp [ha]


theorem parseSingle_bound (r : Request) (p : List Byte) :
    (parseSingle r p).2.1 ≤ p.length := by
  rcases r with ⟨rl, hh, st⟩
  cases st
  case requestStateDone => simp [parseSingle]
  case requestStateInitialized =>
    have hb := parseRequestLine_bound p
    simp only [parseSingle]
    rcases hq : parseRequestLine p with ⟨rlp, n, rest, err⟩
    rw [hq] at hb
    rcases rlp with _ | rlv <;> rcases err with _ | e0 <;> simp at hb ⊢ <;> try omega
    by_cases hn : n = 0
    · simp [hn]
    · simp [hn]; omega
  case requestStateParsingHeaders =>
    have hb := headersParse_bound (hh.getD NewHeaders) p
    simp only [parseSingle]
    rcases hq : headersParse (hh.getD NewHeaders) p with ⟨n, d, err, h'⟩
    rw [hq] at hb
    rcases err with _ | e0
    · by_cases hn : n = 0
      · simp [hn]
      · simp [hn]; simp at hb; omega
    · simp


theorem parseSingle_append (r : Request) (q e : List Byte)
    (h : (parseSingle r q).2.1 ≠ 0 ∨ (parseSingle r q).2.2 ≠ none) :
    parseSingle r (q ++ e) = parseSingle r q := by
  rcases r with ⟨rl, hh, st⟩
  cases st
  case requestStateDone => simp [parseSingle] at h
  case requestStateInitialized =>
    rcases hc : crlfIdx q with _ | i
    · simp [parseSingle, parseRequestLine_insufficient q hc] at h
    · obtain ⟨e1, e2, e3⟩ := parseRequestLine_append q e i hc
      simp only [parseSingle]
      rcases hq : parseRequestLine q with ⟨rlp, n, rest, err⟩
      rcases hqe : parseRequestLine (q ++ e) with ⟨rlp', n', rest', err'⟩
      rw [hq, hqe] at e1 e2 e3
      simp only at e1 e2 e3
      rw [e1, e2, e3]
      rcases rlp with _ | rlv <;> rcases err with _ | e0 <;> simp
  case requestStateParsingHeaders =>
    rcases hc : crlfIdx q with _ | i
    · simp [parseSingle, headersParse_insufficient _ q hc] at h
    · simp only [parseSingle, headersParse_append (hh.getD NewHeaders) q e i hc]

theorem parseSingle_stall (r r' : Request) (q : List Byte)
    (h : parseSingle r q = (r', 0, none)) :
    r'.state = r.state ∧ ∀ X, parseSingle r' X = parseSingle r X := by
  rcases r with ⟨rl, hh, st⟩
  cases st
  case requestStateDone =>
    simp [parseSingle] at h
    obtain ⟨rfl, -⟩ := h
    exact ⟨rfl, fun X => rfl⟩
  case requestStateInitialized =>
    simp only [parseSingle] at h
    rcases hq : parseRequestLine q with ⟨rlp, n, rest, err⟩
    rw [hq] at h
    rcases rlp with _ | rlv <;> rcases err with _ | e0
    · simp at h
      obtain ⟨rfl, -⟩ := h
      exact ⟨rfl, fun X => rfl⟩
    · simp at h
    · by_cases hn : n = 0
      · subst hn; simp at h
        obtain ⟨rfl, -⟩ := h
        exact ⟨rfl, fun X => rfl⟩
      · simp [hn] at h
    · simp at h
  case requestStateParsingHeaders =>
    simp only [parseSingle] at h
    rcases hq : headersParse (hh.getD NewHeaders) q with ⟨n, d, err, h2⟩
    rw [hq] at h
    rcases err with _ | e0
    · by_cases hn : n = 0
      · subst hn
        simp at h
        obtain ⟨rfl, -⟩ := h
        refine ⟨rfl, fun X => ?_⟩
        simp [parseSingle]
      · simp [hn] at h
    · simp at h


theorem parseFuel_irrel : ∀ (f1 f2 : Nat) (r : Request) (q : List Byte),
    q.length ≤ f1 → q.length ≤ f2 → parseFuel f1 r q = parseFuel f2 r q := by
  intro f1
  induction f1 with
  | zero =>
    intro f2 r q h1 h2
    have hq : q = [] := List.eq_nil_of_length_eq_zero (by omega)
    subst hq
    cases f2 with
    | zero => rfl
    | succ f2 => simp [parseFuel]
  | succ f1 ih =>
    intro f2 r q h1 h2
    cases f2 with
    | zero =>
      have hq : q = [] := List.eq_nil_of_length_eq_zero (by omega)
      subst hq
      simp [parseFuel]
    | succ f2 =>
      simp only [parseFuel]
      by_cases hd : r.state = .requestStateDone
      · simp [hd]
      · simp only [if_neg hd]
        by_cases hq : q.length = 0
        · simp [hq]
        · simp only [if_neg hq]
          rcases hps : parseSingle r q with ⟨r', n, err⟩
          rcases err with _ | e0 <;> rcases n with _ | n
          · rfl
          · have hlen : (q.drop (n+1)).length ≤ f1 := by simp; omega
            have hlen2 : (q.drop (n+1)).length ≤ f2 := by simp; omega
            dsimp only
            rw [ih f2 r' (q.drop (n+1)) hlen hlen2]
          · rfl
          · rfl


theorem parseFuel_bound : ∀ (fuel : Nat) (r : Request) (q : List Byte),
    (parseFuel fuel r q).2.1 ≤ q.length := by
  intro fuel
  induction fuel with
  | zero => intro r q; simp [parseFuel]
  | succ fuel ih =>
    intro r q
    simp only [parseFuel]
    by_cases hd : r.state = .requestStateDone
    · simp [hd]
    · simp only [if_neg hd]
      by_cases hq : q.length = 0
      · simp [hq]
      · simp only [if_neg hq]
        rcases hps : parseSingle r q with ⟨r', n, err⟩
        have hb := parseSingle_bound r q
        rw [hps] at hb
        simp only at hb
        rcases err with _ | e0 <;> rcases n with _ | n
        · simp
        · dsimp only
          have hrec := ih r' (q.drop (n+1))
          rw [List.length_drop] at hrec
          exact le_trans (Nat.add_le_add_left hrec (n+1)) (by omega)
        · simp
        · simp


theorem parseFuel_append_error : ∀ (fuel : Nat) (r : Request) (q E : List Byte) (er : PErr),
    (q ++ E).length ≤ fuel →
    (parseFuel fuel r q).2.2 = some er →
    (parseFuel fuel r (q ++ E)).2.2 = some er := by
  intro fuel
  induction fuel with
  | zero => intro r q E er _ herr; simp [parseFuel] at herr
  | succ fuel ih =>
    intro r q E er hlen herr
    by_cases hd : r.state = .requestStateDone
    · simp [parseFuel, hd] at herr
    · by_cases hq0 : q.length = 0
      · simp [parseFuel, hd, hq0] at herr
      · have hqE0 : ¬ (q ++ E).length = 0 := by rw [List.length_append]; omega
        rw [show parseFuel (fuel+1) r q =
          (if r.state = .requestStateDone then (r, 0, none)
           else if q.length = 0 then (r, 0, none)
           else match parseSingle r q with
             | (r', _, some e) => (r', 0, some e)
             | (r', 0, none) => (r', 0, none)
             | (r', n + 1, none) =>
               match parseFuel fuel r' (q.drop (n + 1)) with
               | (r'', m, e) => (r'', (n + 1) + m, e)) from rfl,
          if_neg hd, if_neg hq0] at herr
        rw [show parseFuel (fuel+1) r (q ++ E) =
          (if r.state = .requestStateDone then (r, 0, none)
           else if (q ++ E).length = 0 then (r, 0, none)
           else match parseSingle r (q ++ E) with
             | (r', _, some e) => (r', 0, some e)
             | (r', 0, none) => (r', 0, none)
             | (r', n + 1, none) =>
               match parseFuel fuel r' ((q ++ E).drop (n + 1)) with
               | (r'', m, e) => (r'', (n + 1) + m, e)) from rfl,
          if_neg hd, if_neg hqE0]
        rcases hps : parseSingle r q with ⟨r', n, err⟩
        rw [hps] at herr
        rcases err with _ | e0 <;> rcases n with _ | n
        · simp at herr
        · dsimp only at herr
          have hb := parseSingle_bound r q
          rw [hps] at hb; simp only at hb
          have hpsE : parseSingle r (q ++ E) = (r', n + 1, none) :=
            (parseSingle_append r q E (by rw [hps]; simp)).trans hps
          rw [hpsE]
          dsimp only
          have hdropE : (q ++ E).drop (n + 1) = q.drop (n + 1) ++ E :=
            List.drop_append_of_le_length hb
          rw [hdropE]
          rcases hrec : parseFuel fuel r' (q.drop (n+1) ++ E) with ⟨r3, m3, e3⟩
          have := ih r' (q.drop (n+1)) E er (by simp at hlen ⊢; omega) herr
          rw [hrec] at this
          simpa using this
        · have hpsE : parseSingle r (q ++ E) = (r', 0, some e0) :=
            (parseSingle_append r q E (by rw [hps]; simp)).trans hps
          rw [hpsE]
          dsimp only at herr ⊢
          exact herr
        · have hpsE : parseSingle r (q ++ E) = (r', n + 1, some e0) :=
            (parseSingle_append r q E (by rw [hps]; simp)).trans hps
          rw [hpsE]
          dsimp only at herr ⊢
          exact herr


theorem parseFuel_succ (fuel : Nat) (r : Request) (q : List Byte) :
    parseFuel (fuel+1) r q =
      if r.state = .requestStateDone then (r, 0, none)
      else if q.length = 0 then (r, 0, none)
      else match parseSingle r q with
        | (r', _, some e) => (r', 0, some e)
        | (r', 0, none) => (r', 0, none)
        | (r', n + 1, none) =>
          match parseFuel fuel r' (q.drop (n + 1)) with
          | (r'', m, e) => (r'', (n + 1) + m, e) := rfl


theorem parseFuel_append_of_done : ∀ (fuel : Nat) (r : Request) (q E : List Byte),
    (q ++ E).length ≤ fuel →
    (parseFuel fuel r q).2.2 = none →
    ((parseFuel fuel r q).1).state = .requestStateDone →
    parseFuel fuel r (q ++ E) = parseFuel fuel r q := by
  intro fuel
  induction fuel with
  | zero => intro r q E _ _ _; rfl
  | succ fuel ih =>
    intro r q E hlen hnone hdone
    by_cases hd : r.state = .requestStateDone
    · simp [parseFuel_succ, hd]
    · by_cases hq0 : q.length = 0
      · rw [parseFuel_succ, if_neg hd, if_pos hq0] at hdone
        exact absurd hdone hd
      · have hqE0 : ¬ (q ++ E).length = 0 := by rw [List.length_append]; omega
        rcases hps : parseSingle r q with ⟨r', n, err⟩
        rw [parseFuel_succ, if_neg hd, if_neg hq0, hps] at hnone hdone
        rw [parseFuel_succ fuel r (q ++ E), if_neg hd, if_neg hqE0,
            parseFuel_succ fuel r q, if_neg hd, if_neg hq0, hps]
        rcases err with _ | e0 <;> rcases n with _ | n
        · dsimp only at hdone
          exact absurd ((parseSingle_stall r r' q hps).1 ▸ hdone) hd
        · have hb := parseSingle_bound r q
          rw [hps] at hb; simp only at hb
          have hpsE : parseSingle r (q ++ E) = (r', n + 1, none) :=
            (parseSingle_append r q E (by rw [hps]; simp)).trans hps
          rw [hpsE]
          dsimp only at hnone hdone ⊢
          rcases hrec : parseFuel fuel r' (q.drop (n+1)) with ⟨r3, m3, e3⟩
          rw [hrec] at hnone hdone
          dsimp only at hnone hdone
          rw [List.drop_append_of_le_length hb,
            ih r' (q.drop (n+1)) E
              (by rw [List.length_append] at hlen ⊢; rw [List.length_drop]; omega)
              (by rw [hrec]; exact hnone) (by rw [hrec]; exact hdone)]
          rw [hrec]
        · simp at hnone
        · simp at hnone

theorem parseFuel_stall_fix : ∀ (fuel : Nat) (r : Request) (q : List Byte),
    q.length ≤ fuel →
    (parseFuel fuel r q).2.2 = none →
    ((parseFuel fuel r q).1).state ≠ .requestStateDone →
    parseFuel fuel ((parseFuel fuel r q).1) (q.drop (parseFuel fuel r q).2.1) =
      ((parseFuel fuel r q).1, 0, none) := by
  intro fuel
  induction fuel with
  | zero => intro r q _ _ _; rfl
  | succ fuel ih =>
    intro r q hlen hnone hstate
    rcases hL : parseFuel (fuel+1) r q with ⟨rL, nL, eL⟩
    rw [hL] at hnone hstate
    dsimp only at hnone hstate ⊢
    by_cases hd : r.state = .requestStateDone
    · rw [parseFuel_succ, if_pos hd] at hL
      simp only [Prod.mk.injEq] at hL
      obtain ⟨rfl, -, -⟩ := hL
      exact absurd hd hstate
    · by_cases hq0 : q.length = 0
      · rw [parseFuel_succ, if_neg hd, if_pos hq0] at hL
        simp only [Prod.mk.injEq] at hL
        obtain ⟨rfl, rfl, -⟩ := hL
        rw [List.drop_zero, parseFuel_succ, if_neg hd, if_pos hq0]
      · rcases hps : parseSingle r q with ⟨r', n, err⟩
        rw [parseFuel_succ, if_neg hd, if_neg hq0, hps] at hL
        rcases err with _ | e0 <;> rcases n with _ | n
        · dsimp only at hL
          simp only [Prod.mk.injEq] at hL
          obtain ⟨rfl, rfl, -⟩ := hL
          obtain ⟨hst, hcongr⟩ := parseSingle_stall r r' q hps
          rw [List.drop_zero, parseFuel_succ, if_neg (by rw [hst]; exact hd),
            if_neg hq0, hcongr q, hps]
        · have hb := parseSingle_bound r q
          rw [hps] at hb; simp only at hb
          dsimp only at hL
          rcases hrec : parseFuel fuel r' (q.drop (n+1)) with ⟨r3, m3, e3⟩
          rw [hrec] at hL
          dsimp only at hL
          simp only [Prod.mk.injEq] at hL
          obtain ⟨rfl, rfl, rfl⟩ := hL
          have hihlen : (q.drop (n+1)).length ≤ fuel := by
            rw [List.length_drop]; omega
          have hih := ih r' (q.drop (n+1)) hihlen
            (by rw [hrec]; exact hnone) (by rw [hrec]; exact hstate)
          rw [hrec] at hih
          dsimp only at hih
          rw [List.drop_drop] at hih
          have hflen : (q.drop ((n+1) + m3)).length ≤ fuel := by
            rw [List.length_drop]; omega
          rw [parseFuel_irrel (fuel+1) fuel r3 (q.drop ((n+1) + m3))
            (le_trans hflen (Nat.le_succ fuel)) hflen]
          exact hih
        · dsimp only at hL
          simp only [Prod.mk.injEq] at hL
          obtain ⟨-, -, h3⟩ := hL
          rw [← h3] at hnone
          simp at hnone
        · dsimp only at hL
          simp only [Prod.mk.injEq] at hL
          obtain ⟨-, -, h3⟩ := hL
          rw [← h3] at hnone
          simp at hnone


theorem parseFuel_append_split : ∀ (fuel : Nat) (r : Request) (q E : List Byte),
    (q ++ E).length ≤ fuel →
    (parseFuel fuel r q).2.2 = none →
    ((parseFuel fuel r q).1).state ≠ .requestStateDone →
    parseFuel fuel r (q ++ E) =
      ((parseFuel fuel ((parseFuel fuel r q).1) (q.drop (parseFuel fuel r q).2.1 ++ E)).1,
       (parseFuel fuel r q).2.1 +
         (parseFuel fuel ((parseFuel fuel r q).1) (q.drop (parseFuel fuel r q).2.1 ++ E)).2.1,
       (parseFuel fuel ((parseFuel fuel r q).1) (q.drop (parseFuel fuel r q).2.1 ++ E)).2.2) := by
  intro fuel
  induction fuel with
  | zero => intro r q E _ _ _; simp [parseFuel]
  | succ fuel ih =>
    intro r q E hlen hnone hstate
    rcases hL : parseFuel (fuel+1) r q with ⟨rL, nL, eL⟩
    rw [hL] at hnone hstate
    dsimp only at hnone hstate ⊢
    by_cases hd : r.state = .requestStateDone
    · rw [parseFuel_succ, if_pos hd] at hL
      simp only [Prod.mk.injEq] at hL
      obtain ⟨rfl, -, -⟩ := hL
      exact absurd hd hstate
    · by_cases hq0 : q.length = 0
      · obtain rfl : q = [] := List.eq_nil_of_length_eq_zero hq0
        rw [parseFuel_succ, if_neg hd, if_pos hq0] at hL
        simp only [Prod.mk.injEq] at hL
        obtain ⟨rfl, rfl, -⟩ := hL
        simp only [List.drop_zero, List.nil_append, Nat.zero_add]
      · have hqE0 : ¬ (q ++ E).length = 0 := by rw [List.length_append]; omega
        rcases hps : parseSingle r q with ⟨r', n, err⟩
        rw [parseFuel_succ, if_neg hd, if_neg hq0, hps] at hL
        rcases err with _ | e0 <;> rcases n with _ | n
        · dsimp only at hL
          simp only [Prod.mk.injEq] at hL
          obtain ⟨rfl, rfl, -⟩ := hL
          obtain ⟨hst, hcongr⟩ := parseSingle_stall r r' q hps
          rw [List.drop_zero]
          rw [parseFuel_succ fuel r (q ++ E), if_neg hd, if_neg hqE0]
          rw [parseFuel_succ fuel r' (q ++ E), if_neg (by rw [hst]; exact hd), if_neg hqE0,
            hcongr (q ++ E)]
          rcases hX : parseSingle r (q ++ E) with ⟨rX, nX, eX⟩
          rcases eX with _ | eX0 <;> rcases nX with _ | nX
          · rfl
          · dsimp only
            rcases hG : parseFuel fuel rX ((q ++ E).drop (nX+1)) with ⟨rG, nG, eG⟩
            simp
          · rfl
          · rfl
        · have hb := parseSingle_bound r q
          rw [hps] at hb; simp only at hb
          dsimp only at hL
          rcases hrec : parseFuel fuel r' (q.drop (n+1)) with ⟨r3, m3, e3⟩
          rw [hrec] at hL
          dsimp only at hL
          simp only [Prod.mk.injEq] at hL
          obtain ⟨rfl, rfl, rfl⟩ := hL
          have hpsE : parseSingle r (q ++ E) = (r', n + 1, none) :=
            (parseSingle_append r q E (by rw [hps]; simp)).trans hps
          rw [parseFuel_succ fuel r (q ++ E), if_neg hd, if_neg hqE0, hpsE]
          dsimp only
          rw [List.drop_append_of_le_length hb]
          have hih := ih r' (q.drop (n+1)) E
            (by rw [List.length_append] at hlen ⊢; rw [List.length_drop]; omega)
            (by rw [hrec]; exact hnone)
            (by rw [hrec]; exact hstate)
          rw [hrec] at hih
          dsimp only at hih
          rw [hih]
          rw [List.drop_drop]
          have hflen : (q.drop ((n+1) + m3) ++ E).length ≤ fuel := by
            rw [List.length_append, List.length_drop]
            rw [List.length_append] at hlen
            omega
          rw [parseFuel_irrel (fuel+1) fuel r3 (q.drop ((n+1) + m3) ++ E)
            (le_trans hflen (Nat.le_succ fuel)) hflen]
          simp [Nat.add_assoc]
        · dsimp only at hL
          simp only [Prod.mk.injEq] at hL
          obtain ⟨-, -, h3⟩ := hL
          rw [← h3] at hnone
          simp at hnone
        · dsimp only at hL
          simp only [Prod.mk.injEq] at hL
          obtain ⟨-, -, h3⟩ := hL
          rw [← h3] at hnone
          simp at hnone


theorem parse_def (r : Request) (p : List Byte) : parse r p = parseFuel p.length r p := rfl

theorem qE_le (q E : List Byte) : q.length ≤ (q ++ E).length := by
  rw [List.length_append]; omega

theorem parse_append_error (r : Request) (q E : List Byte) (er : PErr)
    (h : (parse r q).2.2 = some er) : (parse r (q ++ E)).2.2 = some er := by
  rw [parse_def]
  apply parseFuel_append_error (q ++ E).length r q E er le_rfl
  rw [parseFuel_irrel (q ++ E).length q.length r q (qE_le q E) le_rfl]
  exact h

theorem parse_append_of_done (r r' : Request) (q E : List Byte) (n : Nat)
    (h : parse r q = (r', n, none)) (hst : r'.state = .requestStateDone) :
    parse r (q ++ E) = (r', n, none) := by
  have h0 : parseFuel (q ++ E).length r q = (r', n, none) := by
    rw [parseFuel_irrel (q ++ E).length q.length r q (qE_le q E) le_rfl]
    exact h
  have h1 := parseFuel_append_of_done (q ++ E).length r q E le_rfl
    (by rw [h0]) (by rw [h0]; exact hst)
  rw [parse_def, h1, h0]

theorem parse_stall_fix (r r' : Request) (q : List Byte) (n : Nat)
    (h : parse r q = (r', n, none)) (hst : r'.state ≠ .requestStateDone) :
    parse r' (q.drop n) = (r', 0, none) := by
  have h1 := parseFuel_stall_fix q.length r q le_rfl (by rw [← parse_def, h])
    (by rw [← parse_def, h]; exact hst)
  rw [← parse_def, h] at h1
  dsimp only at h1
  rw [parse_def]
  rw [parseFuel_irrel (q.drop n).length q.length r' (q.drop n)
    le_rfl (by rw [List.length_drop]; omega)]
  exact h1

theorem parse_append_split (r r' : Request) (q E : List Byte) (n : Nat)
    (h : parse r q = (r', n, none)) (hst : r'.state ≠ .requestStateDone) :
    (parse r (q ++ E)).1 = (parse r' (q.drop n ++ E)).1 ∧
    (parse r (q ++ E)).2.2 = (parse r' (q.drop n ++ E)).2.2 := by
  have h0 : parseFuel (q ++ E).length r q = (r', n, none) := by
    rw [parseFuel_irrel (q ++ E).length q.length r q (qE_le q E) le_rfl]
    exact h
  have h1 := parseFuel_append_split (q ++ E).length r q E le_rfl
    (by rw [h0]) (by rw [h0]; exact hst)
  rw [h0] at h1
  dsimp only at h1
  have h2 : parseFuel (q ++ E).length r' (q.drop n ++ E) = parse r' (q.drop n ++ E) := by
    rw [parse_def]
    apply parseFuel_irrel
    · rw [List.length_append, List.length_drop, List.length_append]; omega
    · exact le_rfl
  rw [h2] at h1
  rw [parse_def, h1]
  exact ⟨rfl, rfl⟩

theorem drive_done (r : Request) (buf : List Byte) (cs : List (List Byte))
    (h : r.state = .requestStateDone) : drive r buf cs = .ok r := by
  cases cs with
  | nil => simp [drive, h]
  | cons c rest => simp [drive, h]

theorem drive_eq : ∀ (cs : List (List Byte)) (r : Request) (buf : List Byte),
    r.state ≠ .requestStateDone →
    parse r buf = (r, 0, none) →
    drive r buf cs =
      (match parse r (buf ++ cs.flatten) with
       | (_, _, some e) => .error e
       | (r₁, _, none) =>
         if r₁.state = .requestStateDone then .ok r₁
         else .ok { r₁ with state := .requestStateDone }) := by
  intro cs
  induction cs with
  | nil =>
    intro r buf hne hstall
    rw [List.flatten_nil, List.append_nil, hstall]
    dsimp only
    rw [if_neg hne]
    simp [drive, hne]
  | cons c rest ih =>
    intro r buf hne hstall
    rw [show drive r buf (c :: rest) =
      (if r.state = .requestStateDone then .ok r
       else match parse r (buf ++ c) with
         | (_, _, some e) => .error e
         | (r', n, none) => drive r' ((buf ++ c).drop n) rest) from rfl,
      if_neg hne]
    rw [List.flatten_cons, show buf ++ (c ++ rest.flatten) = (buf ++ c) ++ rest.flatten from
      (List.append_assoc buf c rest.flatten).symm]
    rcases hP : parse r (buf ++ c) with ⟨r', n, err⟩
    rcases err with _ | e
    · by_cases hd : r'.state = .requestStateDone
      · rw [parse_append_of_done r r' (buf ++ c) rest.flatten n hP hd]
        dsimp only
        rw [if_pos hd]
        exact drive_done r' ((buf ++ c).drop n) rest hd
      · obtain ⟨h1, h2⟩ := parse_append_split r r' (buf ++ c) rest.flatten n hP hd
        have hstall' := parse_stall_fix r r' (buf ++ c) n hP hd
        dsimp only
        rw [ih r' ((buf ++ c).drop n) hd hstall']
        rcases hA : parse r (buf ++ c ++ rest.flatten) with ⟨rA, nA, eA⟩
        rcases hB : parse r' ((buf ++ c).drop n ++ rest.flatten) with ⟨rB, nB, eB⟩
        rw [hA, hB] at h1 h2
        dsimp only at h1 h2
        rw [h1, h2]
        rcases eB with _ | e0 <;> rfl
    · rw [show (match (r', n, some e) with
         | (_, _, some e) => Except.error e
         | (r', n, none) => drive r' ((buf ++ c).drop n) rest) = Except.error e from rfl]
      have := parse_append_error r (buf ++ c) rest.flatten e (by rw [hP])
      rcases hA : parse r (buf ++ c ++ rest.flatten) with ⟨rA, nA, eA⟩
      rw [hA] at this
      dsimp only at this
      rw [this]


/-! ### Claim theorems: the read-loop / driver claims -/

/-- C3: for every valid request byte stream (one whose one-piece parse
reaches `requestStateDone` with no error), feeding the same bytes to
`RequestFromReader` split into chunks of any sizes yields exactly the same
finished `Request` (request line, header mapping and all) as parsing the
stream in one piece. -/
theorem chunk_size_invariance (all : List Byte) (cs : List (List Byte))
    (hjoin : cs.flatten = all)
    (hok : (parse newRequest all).2.2 = none)
    (hdone : ((parse newRequest all).1).state = .requestStateDone) :
    RequestFromReader cs = RequestFromReader [all] ∧
    RequestFromReader cs = .ok (parse newRequest all).1 := by
  have hne : newRequest.state ≠ .requestStateDone := by
    intro h; exact absurd h (by decide)
  have hstall : parse newRequest [] = (newRequest, 0, none) := rfl
  have h1 : RequestFromReader cs = .ok (parse newRequest all).1 := by
    rw [RequestFromReader, drive_eq cs newRequest [] hne hstall, List.nil_append, hjoin]
    rcases hA : parse newRequest all with ⟨rA, nA, eA⟩
    rw [hA] at hok hdone
    dsimp only at hok hdone ⊢
    subst hok
    dsimp only
    rw [if_pos hdone]
  have h2 : RequestFromReader [all] = .ok (parse newRequest all).1 := by
    rw [RequestFromReader, drive_eq [all] newRequest [] hne hstall, List.nil_append]
    rw [show List.flatten [all] = all by simp]
    rcases hA : parse newRequest all with ⟨rA, nA, eA⟩
    rw [hA] at hok hdone
    dsimp only at hok hdone ⊢
    subst hok
    dsimp only
    rw [if_pos hdone]
  exact ⟨h1.trans h2.symm, h1⟩

/-- C3 witness: Scenario A delivered one byte at a time gives the same
Request as in one piece. -/
theorem chunk_size_invariance_witness :
    RequestFromReader
        ((bytesOf "GET / HTTP/1.1\r\nHost: localhost:42069\r\n\r\n").map (fun b => [b])) =
      RequestFromReader [bytesOf "GET / HTTP/1.1\r\nHost: localhost:42069\r\n\r\n"] :=
  (chunk_size_invariance (bytesOf "GET / HTTP/1.1\r\nHost: localhost:42069\r\n\r\n")
    ((bytesOf "GET / HTTP/1.1\r\nHost: localhost:42069\r\n\r\n").map (fun b => [b]))
    (by decide) (by decide) (by decide)).1

/-- C1 counterexample: a stream that closes mid-header (Scenario F) does
not make `RequestFromReader` fail; it returns a Request — with the already
parsed `host` header inside — and no error at all. -/
theorem eof_mid_header_returns_request :
    RequestFromReader [bytesOf "GET / HTTP/1.1\r\nHost: localhost\r\nUser-Age"] =
      .ok { RequestLine := { HttpVersion := bytesOf "1.1", RequestTarget := bytesOf "/",
                             Method := bytesOf "GET" },
            Headers := some [(bytesOf "host", bytesOf "localhost")],
            state := .requestStateDone } := rfl

/-- C1 amended: when the byte source signals end-of-stream before the state
machine reaches Done, the read loop of `RequestFromReader` marks the state
Done and returns the partially parsed Request with no error (there is no
`UnexpectedEndOfStream` error in this code). -/
theorem eof_forces_done_and_returns_partial (r : Request) (buf : List Byte) :
    drive r buf [] =
      .ok (if r.state = .requestStateDone then r
           else { r with state := .requestStateDone }) := by
  by_cases h : r.state = .requestStateDone <;> simp [drive, h]

/-- C10: for every parser state and every input slice `p`, the driver
`Request.parse` reports a consumed-byte count of at most `p`'s length (it
is a `Nat`, hence also at least 0), so the cursor advance `buf[n:]` stays
in bounds. -/
theorem parse_consumed_le_length (r : Request) (p : List Byte) :
    (parse r p).2.1 ≤ p.length :=
  parseFuel_bound p.length r p

/-! ### Claim theorems: concrete scenarios and the header/request-line parsers -/

/-- C4: parsing `"GET / HTTP/1.1\r\nHost: localhost:42069\r\n\r\n"` succeeds
with Method `GET`, target `/`, version `1.1` and header map
`{host ↦ localhost:42069}` — in the source's machine, and likewise in the
spec-modelled full machine, where additionally the body is empty. -/
theorem scenario_a_parses :
    RequestFromReader [bytesOf "GET / HTTP/1.1\r\nHost: localhost:42069\r\n\r\n"] =
      .ok { RequestLine := { HttpVersion := bytesOf "1.1", RequestTarget := bytesOf "/",
                             Method := bytesOf "GET" },
            Headers := some [(bytesOf "host", bytesOf "localhost:42069")],
            state := .requestStateDone } ∧
    RequestFromReaderB [bytesOf "GET / HTTP/1.1\r\nHost: localhost:42069\r\n\r\n"] =
      .ok { RequestLine := { HttpVersion := bytesOf "1.1", RequestTarget := bytesOf "/",
                             Method := bytesOf "GET" },
            Headers := some [(bytesOf "host", bytesOf "localhost:42069")],
            Body := [],
            state := .done } :=
  ⟨rfl, rfl⟩

/-- C2: in the spec-modelled body collector, whenever the accumulated body
would exceed the declared Content-Length target, the step fails with
`ContentLengthMismatch`; and concretely, parsing
`"POST /x HTTP/1.1\r\nContent-Length: 5\r\n\r\n123456"` returns that error
and no Request. -/
theorem content_length_mismatch :
    (∀ (r : RequestB) (t : Nat) (p : List Byte),
      r.state = .parsingBody t →
      t < (r.Body ++ p).length →
      (parseSingleB r p).2.2 = some .ContentLengthMismatch) ∧
    RequestFromReaderB [bytesOf "POST /x HTTP/1.1\r\nContent-Length: 5\r\n\r\n123456"] =
      .error .ContentLengthMismatch := by
  constructor
  · intro r t p hst hlen
    rcases r with ⟨rl, hh, body, st⟩
    dsimp only at hst hlen
    subst hst
    rw [List.length_append] at hlen
    simp [parseSingleB, hlen]
  · rfl

/-- C2 witness: the body-overflow step at a concrete state (target 2,
3 bytes already held, 2 more arriving). -/
theorem content_length_mismatch_witness :
    (parseSingleB { RequestLine := ⟨[], [], []⟩, Headers := some [],
                    Body := bytesOf "123", state := .parsingBody 2 }
      (bytesOf "45")).2.2 = some .ContentLengthMismatch :=
  content_length_mismatch.1 _ 2 _ rfl (by decide)

/-- C6 counterexample: `"get / XYZ\r\n\r\n"` has a complete request line
that splits on its two spaces and a method (`get`) with bytes outside
`A`-`Z`, yet the parser reports `InvalidVersion`, not `InvalidMethod`:
the version literal is checked before the method bytes. -/
theorem lowercase_method_bad_version_counterexample :
    (bytesOf "get").all (fun c => 65 ≤ c && c ≤ 90) = false ∧
    parseRequestLine (bytesOf "get / XYZ\r\n\r\n") =
      (none, 0, bytesOf "get / XYZ\r\n\r\n", some (.InvalidVersion (bytesOf "XYZ"))) :=
  ⟨by decide, rfl⟩

/-- C6 amended: for a complete CRLF-terminated request line splitting into
method, target, and a version part that IS exactly `"HTTP/1.1"`, a method
byte outside ASCII `A`-`Z` produces `InvalidMethod` carrying the raw
method; when the version part differs, `InvalidVersion` preempts it. -/
theorem invalid_method_on_version_match (m t extra : List Byte)
    (hm13 : ∀ b ∈ m, b ≠ 13) (hm32 : 32 ∉ m)
    (ht13 : ∀ b ∈ t, b ≠ 13) (ht32 : 32 ∉ t)
    (hbad : m.all (fun c => 65 ≤ c && c ≤ 90) = false) :
    parseRequestLine ((m ++ 32 :: (t ++ 32 :: httpVersionLit)) ++ 13 :: 10 :: extra) =
      (none, 0, (m ++ 32 :: (t ++ 32 :: httpVersionLit)) ++ 13 :: 10 :: extra,
       some (.InvalidMethod m)) := by
  have hl13 : ∀ b ∈ (m ++ 32 :: (t ++ 32 :: httpVersionLit)), b ≠ 13 := by
    intro b hb
    rcases List.mem_append.mp hb with h | h
    · exact hm13 b h
    · rcases List.mem_cons.mp h with rfl | h
      · decide
      · rcases List.mem_append.mp h with h | h
        · exact ht13 b h
        · rcases List.mem_cons.mp h with rfl | h
          · decide
          · simp [httpVersionLit] at h
            rcases h with rfl | rfl | rfl | rfl | rfl | rfl | rfl | rfl <;> decide
  have hcr := crlfIdx_of_no13 (m ++ 32 :: (t ++ 32 :: httpVersionLit)) extra hl13
  have htake : ((m ++ 32 :: (t ++ 32 :: httpVersionLit)) ++ 13 :: 10 :: extra).take
      (m ++ 32 :: (t ++ 32 :: httpVersionLit)).length =
      (m ++ 32 :: (t ++ 32 :: httpVersionLit)) :=
    (List.take_append_of_le_length le_rfl).trans (List.take_length _)
  have hcore : parseRequestLineCore (m ++ 32 :: (t ++ 32 :: httpVersionLit)) =
      (none, some (.InvalidMethod m)) := by
    unfold parseRequestLineCore
    rw [cutByte_not_mem 32 m (t ++ 32 :: httpVersionLit) hm32]
    dsimp only
    rw [cutByte_not_mem 32 t httpVersionLit ht32]
    dsimp only
    rw [if_neg (by simp)]
    rw [show cutByte 47 httpVersionLit = some ([72, 84, 84, 80], [49, 46, 49]) from rfl]
    dsimp only
    simp [hbad]
  simp only [parseRequestLine, hcr, htake, hcore]

/-- C6 amended witness: Scenario E, `"get / HTTP/1.1\r\n\r\n"`. -/
theorem invalid_method_on_version_match_witness :
    parseRequestLine ((bytesOf "get" ++ 32 :: (bytesOf "/" ++ 32 :: httpVersionLit)) ++
        13 :: 10 :: bytesOf "\r\n") =
      (none, 0, (bytesOf "get" ++ 32 :: (bytesOf "/" ++ 32 :: httpVersionLit)) ++
        13 :: 10 :: bytesOf "\r\n",
       some (.InvalidMethod (bytesOf "get"))) :=
  invalid_method_on_version_match (bytesOf "get") (bytesOf "/") (bytesOf "\r\n")
    (by decide) (by decide) (by decide) (by decide) (by decide)

/-- C7: on an input slice containing no CRLF pair, the request-line parser
returns (no line, 0 consumed, the slice back, no error), and the
header-field parser returns (0 consumed, not done, no error) leaving any
map untouched: a unit split across reads is never treated as malformed. -/
theorem no_crlf_means_insufficient_data (data : List Byte)
    (h : ∀ s t : List Byte, data ≠ s ++ 13 :: 10 :: t) :
    parseRequestLine data = (none, 0, data, none) ∧
    ∀ hh : Headers, headersParse hh data = (0, false, none, hh) := by
  have hc : crlfIdx data = none := by
    rcases he : crlfIdx data with _ | i
    · rfl
    · obtain ⟨s, t, hst⟩ := crlfIdx_decomp data i he
      exact absurd hst (h s t)
  exact ⟨parseRequestLine_insufficient data hc,
         fun hh => headersParse_insufficient hh data hc⟩

/-- Helper: a CRLF decomposition always makes the scan succeed. -/
theorem crlfIdx_append_crlf_isSome : ∀ s t : List Byte,
    (crlfIdx (s ++ 13 :: 10 :: t)).isSome = true := by
  intro s
  induction s with
  | nil => intro t; simp [crlfIdx]
  | cons b s' ih =>
    intro t
    obtain ⟨c, rest, hcr⟩ : ∃ c rest, s' ++ 13 :: 10 :: t = c :: rest := by
      cases s' with
      | nil => exact ⟨13, 10 :: t, rfl⟩
      | cons c r => exact ⟨c, r ++ 13 :: 10 :: t, rfl⟩
    rw [show (b :: s') ++ 13 :: 10 :: t = b :: (s' ++ 13 :: 10 :: t) from rfl, hcr]
    rw [show crlfIdx (b :: c :: rest) =
      (if b = 13 ∧ c = 10 then some 0 else (crlfIdx (c :: rest)).map (· + 1)) from rfl]
    by_cases hbc : b = 13 ∧ c = 10
    · simp [hbc]
    · rw [if_neg hbc]
      have h0 := ih t
      rw [hcr] at h0
      rcases hx : crlfIdx (c :: rest) with _ | j
      · rw [hx] at h0; simp at h0
      · simp

/-- C7 helper: a list whose CRLF scan comes up empty really contains no
CRLF decomposition. -/
theorem no_crlf_of_crlfIdx_none (l : List Byte) (h : crlfIdx l = none) :
    ∀ s t : List Byte, l ≠ s ++ 13 :: 10 :: t := by
  intro s t heq
  subst heq
  have h0 := crlfIdx_append_crlf_isSome s t
  rw [h] at h0
  simp at h0

/-- C7 witness: a half-received unit (`"User-Age"`, no CRLF yet) is
insufficient data for both sub-parsers, not an error. -/
theorem no_crlf_means_insufficient_data_witness :
    parseRequestLine (bytesOf "User-Age") = (none, 0, bytesOf "User-Age", none) ∧
    headersParse [(bytesOf "host", bytesOf "x")] (bytesOf "User-Age") =
      (0, false, none, [(bytesOf "host", bytesOf "x")]) := by
  have h := no_crlf_means_insufficient_data (bytesOf "User-Age")
    (no_crlf_of_crlfIdx_none (bytesOf "User-Age") (by decide))
  exact ⟨h.1, h.2 [(bytesOf "host", bytesOf "x")]⟩

/-- C9: `Headers.Parse` is atomic on failure — whenever it returns an
error, it reports zero bytes consumed and returns the mapping unchanged. -/
theorem headersParse_atomic_on_error (hh : Headers) (data : List Byte)
    (n : Nat) (d : Bool) (e : HErr) (hh' : Headers)
    (heq : headersParse hh data = (n, d, some e, hh')) :
    n = 0 ∧ hh' = hh := by
  rcases hc : crlfIdx data with _ | i
  · rw [headersParse_insufficient hh data hc] at heq
    simp at heq
  · simp only [headersParse, hc] at heq
    by_cases hi : i = 0
    · simp [hi] at heq
    · simp only [if_neg hi] at heq
      rcases hcut : cutByte 58 (data.take i) with _ | ⟨key, remaining⟩
      · rw [hcut] at heq
        simp only [Prod.mk.injEq] at heq
        exact ⟨heq.1.symm, heq.2.2.2.symm⟩
      · rw [hcut] at heq
        dsimp only at heq
        by_cases hk : key = []
        · rw [if_pos hk] at heq
          simp only [Prod.mk.injEq] at heq
          exact ⟨heq.1.symm, heq.2.2.2.symm⟩
        · rw [if_neg hk] at heq
          by_cases hl : key.getLast? = some 32
          · rw [if_pos hl] at heq
            simp only [Prod.mk.injEq] at heq
            exact ⟨heq.1.symm, heq.2.2.2.symm⟩
          · rw [if_neg hl] at heq
            by_cases ha : ((trimLeftSpaces key).map toLowerB).all isTokenChar
            · rw [if_pos ha] at heq
              simp only [Prod.mk.injEq] at heq
              exact absurd heq.2.2.1 (by simp)
            · rw [if_neg ha] at heq
              simp only [Prod.mk.injEq] at heq
              exact ⟨heq.1.symm, heq.2.2.2.symm⟩

/-- C9 witness: a missing colon reports 0 consumed and an unchanged map. -/
theorem headersParse_atomic_on_error_witness :
    (0 : Nat) = 0 ∧ ([(bytesOf "a", bytesOf "b")] : Headers) = [(bytesOf "a", bytesOf "b")] :=
  headersParse_atomic_on_error [(bytesOf "a", bytesOf "b")]
    (bytesOf "Host localhost\r\n") 0 false .NoColon [(bytesOf "a", bytesOf "b")] (by decide)

/-! ### Claim C5: repeated field names combine into one comma-joined entry -/

/-- One raw field line `key ":" value CRLF`. -/
def mkFieldLine (k v : List Byte) : List Byte := (k ++ 58 :: v) ++ [13, 10]

/-- Feed a sequence of field lines through `Headers.Parse`, one line per
invocation, threading the map. -/
def feedFields (h : Headers) (fields : List (List Byte × List Byte)) : Headers :=
  fields.foldl (fun h kv => (headersParse h (mkFieldLine kv.1 kv.2)).2.2.2) h

/-- `v1 ++ ", " ++ v2 ++ ... ++ ", " ++ vN`. -/
def commaJoin : List (List Byte) → List Byte
  | [] => []
  | [v] => v
  | v :: vs => v ++ 44 :: 32 :: commaJoin vs

/-- A raw occurrence `(key, value)` of the field `name`: the raw key is
nonempty, does not end in a space, contains no CR and no colon, and
normalizes (trim leading spaces, lower-case) to `name`; the value contains
no CR and carries no surrounding whitespace. -/
abbrev goodField (name : List Byte) (kv : List Byte × List Byte) : Prop :=
  kv.1 ≠ [] ∧ kv.1.getLast? ≠ some 32 ∧ (∀ b ∈ kv.1, b ≠ 13) ∧ 58 ∉ kv.1 ∧
  (trimLeftSpaces kv.1).map toLowerB = name ∧ (∀ b ∈ kv.2, b ≠ 13) ∧
  trimSpaceB kv.2 = kv.2

theorem headersParse_mkFieldLine (h₀ : Headers) (name k v : List Byte)
    (hk0 : k ≠ []) (hklast : k.getLast? ≠ some 32) (hk13 : ∀ b ∈ k, b ≠ 13)
    (hk58 : 58 ∉ k) (hknorm : (trimLeftSpaces k).map toLowerB = name)
    (hv13 : ∀ b ∈ v, b ≠ 13) (hvtrim : trimSpaceB v = v)
    (hname : name.all isTokenChar = true) :
    headersParse h₀ (mkFieldLine k v) =
      ((k ++ 58 :: v).length + 2, false, none,
       match hGet h₀ name with
       | some existingValue => hSet h₀ name (existingValue ++ [44, 32] ++ v)
       | none => hSet h₀ name v) := by
  have hl13 : ∀ b ∈ (k ++ 58 :: v), b ≠ 13 := by
    intro b hb
    rcases List.mem_append.mp hb with hb | hb
    · exact hk13 b hb
    · rcases List.mem_cons.mp hb with rfl | hb
      · decide
      · exact hv13 b hb
  have hcr : crlfIdx (mkFieldLine k v) = some (k ++ 58 :: v).length :=
    crlfIdx_of_no13 (k ++ 58 :: v) [] hl13
  have hi0 : ¬ (k ++ 58 :: v).length = 0 := by
    rw [List.length_append]; simp
  have htake : (mkFieldLine k v).take (k ++ 58 :: v).length = k ++ 58 :: v :=
    (List.take_append_of_le_length le_rfl).trans (List.take_length _)
  simp only [headersParse, hcr, if_neg hi0, htake]
  rw [cutByte_not_mem 58 k v hk58]
  dsimp only
  rw [if_neg hk0, if_neg hklast, hvtrim, hknorm, if_pos hname]

theorem hGet_single (name acc : List Byte) : hGet [(name, acc)] name = some acc := by
  simp [hGet]

theorem hSet_single (name acc x : List Byte) : hSet [(name, acc)] name x = [(name, x)] := by
  simp [hSet]

theorem feedFields_acc (name : List Byte) (hname : name.all isTokenChar = true) :
    ∀ (fields : List (List Byte × List Byte)) (acc : List Byte),
    (∀ kv ∈ fields, goodField name kv) →
    feedFields [(name, acc)] fields =
      [(name, fields.foldl (fun a kv => a ++ 44 :: 32 :: kv.2) acc)] := by
  intro fields
  induction fields with
  | nil => intro acc _; rfl
  | cons kv rest ih =>
    intro acc hgood
    obtain ⟨hk0, hklast, hk13, hk58, hknorm, hv13, hvtrim⟩ := hgood kv (by simp)
    rw [show feedFields [(name, acc)] (kv :: rest) =
      feedFields ((headersParse [(name, acc)] (mkFieldLine kv.1 kv.2)).2.2.2) rest from rfl]
    rw [headersParse_mkFieldLine [(name, acc)] name kv.1 kv.2 hk0 hklast hk13 hk58
      hknorm hv13 hvtrim hname]
    dsimp only
    rw [hGet_single]
    dsimp only
    rw [hSet_single, List.foldl_cons,
      show acc ++ [44, 32] ++ kv.2 = acc ++ 44 :: 32 :: kv.2 by simp]
    exact ih (acc ++ 44 :: 32 :: kv.2) (fun x hx => hgood x (List.mem_cons_of_mem kv hx))

theorem foldl_comma_pairs (fields : List (List Byte × List Byte)) : ∀ a : List Byte,
    fields.foldl (fun x kv => x ++ 44 :: 32 :: kv.2) a =
      a ++ (fields.map (fun kv => 44 :: 32 :: kv.2)).flatten := by
  induction fields with
  | nil => intro a; simp
  | cons kv rest ih => intro a; rw [List.foldl_cons, ih]; simp

theorem commaJoin_cons (v : List Byte) (vs : List (List Byte)) :
    commaJoin (v :: vs) = v ++ (vs.map (fun w => 44 :: 32 :: w)).flatten := by
  induction vs generalizing v with
  | nil => simp [commaJoin]
  | cons w vs' ih =>
    rw [show commaJoin (v :: w :: vs') = v ++ 44 :: 32 :: commaJoin (w :: vs') from rfl, ih w]
    simp

/-- C5: N occurrences of one (case-insensitively equal, token-valid) field
name with values v1..vN, fed through `Headers.Parse` starting from the
empty map, produce exactly the single entry
`name ↦ v1 ++ ", " ++ ... ++ ", " ++ vN`, in arrival order. -/
theorem repeated_field_names_combine (name : List Byte)
    (fields : List (List Byte × List Byte))
    (hne : fields ≠ [])
    (hgood : ∀ kv ∈ fields, goodField name kv)
    (hname : name.all isTokenChar = true) :
    feedFields NewHeaders fields = [(name, commaJoin (fields.map (·.2)))] := by
  rcases fields with _ | ⟨kv, rest⟩
  · exact absurd rfl hne
  obtain ⟨hk0, hklast, hk13, hk58, hknorm, hv13, hvtrim⟩ := hgood kv (by simp)
  rw [show feedFields NewHeaders (kv :: rest) =
    feedFields ((headersParse NewHeaders (mkFieldLine kv.1 kv.2)).2.2.2) rest from rfl]
  rw [headersParse_mkFieldLine NewHeaders name kv.1 kv.2 hk0 hklast hk13 hk58
    hknorm hv13 hvtrim hname]
  dsimp only
  rw [show hGet NewHeaders name = none from rfl]
  rw [show hSet NewHeaders name kv.2 = [(name, kv.2)] from rfl]
  rw [feedFields_acc name hname rest kv.2 (fun x hx => hgood x (List.mem_cons_of_mem kv hx))]
  rw [List.map_cons, commaJoin_cons, foldl_comma_pairs]
  rw [List.map_map]
  rfl

/-- C5 witness: two casings of `Host` with values `a` then `b` merge into
`host ↦ "a, b"`. -/
theorem repeated_field_names_combine_witness :
    feedFields NewHeaders [(bytesOf "Host", bytesOf "a"), (bytesOf "hOSt", bytesOf "b")] =
      [(bytesOf "host", bytesOf "a, b")] :=
  (repeated_field_names_combine (bytesOf "host")
    [(bytesOf "Host", bytesOf "a"), (bytesOf "hOSt", bytesOf "b")]
    (by decide) (by decide) (by decide)).trans (by decide)

/-! ### Claim C8: the writer's three-phase order -/

/-- The invariant tying a writer's phase to what has been emitted: nothing
before the status line, only a status line before the headers, and body
bytes only ever after a status line and a complete (blank-line-terminated)
header block. -/
abbrev writerInv (w : Writer) : Prop :=
  (w.state = .StateStatusPending → w.writer = []) ∧
  (w.state = .StateHeadersPending → ∃ c, w.writer = statusLineBytes c) ∧
  (w.state = .StateBodyPending →
    ∃ c hs b, w.writer = statusLineBytes c ++ headersBytes hs ++ [13, 10] ++ b)

theorem writerInv_applyOp (w : Writer) (op : WOp) (h : writerInv w) :
    writerInv (applyOp w op) := by
  obtain ⟨h1, h2, h3⟩ := h
  rcases w with ⟨out, st⟩
  cases st with
  | StateStatusPending =>
    have hout : out = [] := h1 rfl
    subst hout
    cases op with
    | status c =>
      refine ⟨fun hx => ?_, fun _ => ⟨c, ?_⟩, fun hx => ?_⟩
      · simp [applyOp, writeStatusLineW] at hx
      · simp [applyOp, writeStatusLineW]
      · simp [applyOp, writeStatusLineW] at hx
    | headers hs =>
      refine ⟨fun _ => ?_, fun hx => ?_, fun hx => ?_⟩
      · simp [applyOp, writeHeadersW]
      · simp [applyOp, writeHeadersW] at hx
      · simp [applyOp, writeHeadersW] at hx
    | body p =>
      refine ⟨fun _ => ?_, fun hx => ?_, fun hx => ?_⟩
      · simp [applyOp, writeBodyW]
      · simp [applyOp, writeBodyW] at hx
      · simp [applyOp, writeBodyW] at hx
  | StateHeadersPending =>
    obtain ⟨c, hout⟩ := h2 rfl
    subst hout
    cases op with
    | status c' =>
      refine ⟨fun hx => ?_, fun _ => ⟨c, ?_⟩, fun hx => ?_⟩
      · simp [applyOp, writeStatusLineW] at hx
      · simp [applyOp, writeStatusLineW]
      · simp [applyOp, writeStatusLineW] at hx
    | headers hs =>
      refine ⟨fun hx => ?_, fun hx => ?_, fun _ => ⟨c, hs, [], ?_⟩⟩
      · simp [applyOp, writeHeadersW] at hx
      · simp [applyOp, writeHeadersW] at hx
      · simp [applyOp, writeHeadersW]
    | body p =>
      refine ⟨fun hx => ?_, fun _ => ⟨c, ?_⟩, fun hx => ?_⟩
      · simp [applyOp, writeBodyW] at hx
      · simp [applyOp, writeBodyW]
      · simp [applyOp, writeBodyW] at hx
  | StateBodyPending =>
    obtain ⟨c, hs, b, hout⟩ := h3 rfl
    subst hout
    cases op with
    | status c' =>
      refine ⟨fun hx => ?_, fun hx => ?_, fun _ => ⟨c, hs, b, ?_⟩⟩
      · simp [applyOp, writeStatusLineW] at hx
      · simp [applyOp, writeStatusLineW] at hx
      · simp [applyOp, writeStatusLineW]
    | headers hs' =>
      refine ⟨fun hx => ?_, fun hx => ?_, fun _ => ⟨c, hs, b, ?_⟩⟩
      · simp [applyOp, writeHeadersW] at hx
      · simp [applyOp, writeHeadersW] at hx
      · simp [applyOp, writeHeadersW]
    | body p =>
      refine ⟨fun hx => ?_, fun hx => ?_, fun _ => ⟨c, hs, b ++ p, ?_⟩⟩
      · simp [applyOp, writeBodyW] at hx
      · simp [applyOp, writeBodyW] at hx
      · simp [applyOp, writeBodyW]

theorem writerInv_runOps : ∀ (ops : List WOp) (w : Writer),
    writerInv w → writerInv (runOps w ops) := by
  intro ops
  induction ops with
  | nil => exact fun w h => h
  | cons op rest ih =>
    intro w h
    exact ih (applyOp w op) (writerInv_applyOp w op h)

/-- C8: the response writer enforces status line → headers → body.
`WriteStatusLine` succeeds exactly in the initial phase, `WriteHeaders`
exactly once the status line has been written, `WriteBody` exactly once
both earlier phases are complete — and along every call sequence from a
fresh writer, body bytes only ever appear after a status line and a
complete header block in the output. -/
theorem writer_three_phase_order :
    (∀ (w : Writer) (c : Nat),
      (∃ w', writeStatusLineW w c = .ok w') ↔ w.state = .StateStatusPending) ∧
    (∀ (w : Writer) (hs : Headers),
      (∃ w', writeHeadersW w hs = .ok w') ↔ w.state = .StateHeadersPending) ∧
    (∀ (w : Writer) (p : List Byte),
      (∃ res, writeBodyW w p = .ok res) ↔ w.state = .StateBodyPending) ∧
    (∀ ops : List WOp, writerInv (runOps NewWriter ops)) := by
  refine ⟨fun w c => ?_, fun w hs => ?_, fun w p => ?_, fun ops => ?_⟩
  · constructor
    · rintro ⟨w', hw⟩
      by_cases h : w.state = .StateStatusPending
      · exact h
      · simp [writeStatusLineW, h] at hw
    · intro h
      refine ⟨{ writer := w.writer ++ statusLineBytes c, state := .StateHeadersPending }, ?_⟩
      simp [writeStatusLineW, h]
  · constructor
    · rintro ⟨w', hw⟩
      by_cases h : w.state = .StateHeadersPending
      · exact h
      · simp [writeHeadersW, h] at hw
    · intro h
      refine ⟨{ writer := w.writer ++ headersBytes hs ++ [13, 10],
                state := .StateBodyPending }, ?_⟩
      simp [writeHeadersW, h]
  · constructor
    · rintro ⟨res, hw⟩
      by_cases h : w.state = .StateBodyPending
      · exact h
      · simp [writeBodyW, h] at hw
    · intro h
      refine ⟨({ w with writer := w.writer ++ p }, p.length), ?_⟩
      simp [writeBodyW, h]
  · exact writerInv_runOps ops NewWriter
      ⟨fun _ => rfl, fun h => absurd h (by decide), fun h => absurd h (by decide)⟩

/-- C8 witness: from a fresh writer, with no calls made, nothing has been
written. -/
theorem writer_three_phase_order_witness : (runOps NewWriter []).writer = [] :=
  (writer_three_phase_order.2.2.2 []).1 rfl
